import Mathlib

/-!
# Biggest divisible conglomerate

A shallow embedding of `biggest-divisible-conglomerate.cpp` and a verification
of its specification.

## Modelling conventions

* A C++ `int` is a Lean `Int`.  The only arithmetic the program performs is
  `%` on input values and `+ 1` on table entries that never exceed the input
  size, so no wrap-around can occur on the inputs considered and the values are
  left unbounded.
* A `vector<int>` is a `List Int`; `v[i]` is the checked lookup `v[i]?`, so an
  out-of-range access makes the whole computation `none`.
* `a % b` is `cmod`: it is `none` where C++ leaves the operation undefined
  (`b = 0`, or `INT_MIN % -1`) and the truncated remainder `Int.tmod` otherwise.
* The functions therefore return `Option`: `none` stands for "the C++ program
  has no defined result" (or, for the walk-back loop, "the iteration budget
  was exhausted").  The theorems show that `none` never arises for lists of
  positive integers.
* `std::sort` is modelled by `List.insertionSort (· ≤ ·)`: on integers the
  ascending sort of a list is unique, so the choice of algorithm is immaterial.
* `std::find(subset.begin(), subset.end(), x) != subset.end()` is list
  membership `x ∈ subset`.
-/

namespace BDC

/-! ## Primitive operations -/

/-- The C++ expression `a % b` on `int`: undefined for `b = 0` and for
`INT_MIN % -1`, the truncated remainder otherwise. -/
def cmod (a b : Int) : Option Int :=
  if b = 0 ∨ (a = -2147483648 ∧ b = -1) then none else some (Int.tmod a b)

/-- The C++ assignment `xs[i] = v` on a vector: undefined when `i` is out of
range. -/
def store (xs : List Int) (i : Nat) (v : Int) : Option (List Int) :=
  if i < xs.length then some (xs.set i v) else none

/-- The mutable locals of `findLargestDivisibleSubset` during the fill loop:
the length table `dp`, the predecessor table `prev` and `maxIndex`. -/
structure Tables where
  dp : List Int
  prev : List Int
  maxIndex : Nat
deriving DecidableEq

/-! ## The fill loop (source lines 71-82) -/

/-- One iteration of the inner loop, lines 73-76:
`if (input[i] % input[j] == 0 && dp[j] + 1 > dp[i]) { dp[i] = dp[j] + 1; prev[i] = j; }`.
The `&&` is short-circuiting, so the tables are read only after the remainder
test succeeded. -/
def innerStep (input : List Int) (i : Nat) (t : Tables) (j : Nat) : Option Tables := do
  let xi ← input[i]?
  let xj ← input[j]?
  let r ← cmod xi xj
  if r = 0 then do
    let dj ← t.dp[j]?
    let di ← t.dp[i]?
    if dj + 1 > di then do
      let dp ← store t.dp i (dj + 1)
      let prev ← store t.prev i (j : Int)
      pure { t with dp := dp, prev := prev }
    else pure t
  else pure t

/-- The inner loop `for (int j = 0; j < i; ++j)`, line 72. -/
def innerLoop (input : List Int) (i : Nat) (t : Tables) : Option Tables :=
  (List.range i).foldlM (innerStep input i) t

/-- One iteration of the outer loop, lines 71-82: the inner loop followed by
`if (dp[i] > dp[maxIndex]) maxIndex = i;`. -/
def outerStep (input : List Int) (t : Tables) (i : Nat) : Option Tables := do
  let t1 ← innerLoop input i t
  let di ← t1.dp[i]?
  let dm ← t1.dp[t1.maxIndex]?
  if di > dm then pure { t1 with maxIndex := i } else pure t1

/-- The tables as initialised on lines 44-50: `dp(n, 1)`, `prev(n, -1)`,
`maxIndex = 0`. -/
def initTables (n : Nat) : Tables :=
  { dp := List.replicate n 1, prev := List.replicate n (-1), maxIndex := 0 }

/-- The outer loop `for (int i = 1; i < n; ++i)`, line 71, run on the sorted
vector from the initial tables. -/
def fillTables (input : List Int) (n : Nat) : Option Tables :=
  (List.range' 1 (n - 1)).foldlM (outerStep input) (initTables n)

/-! ## The walk-back loop (source lines 85-89) -/

/-- The loop `for (int i = maxIndex; i >= 0; i = prev[i]) { subset.push_back(input[i]);
if (prev[i] == -1) break; }`.  The first argument bounds the number of
iterations; running out of it yields `none`. -/
def walkBack (input prev : List Int) : Nat → Int → List Int → Option (List Int)
  | 0, _, _ => none
  | fuel + 1, i, subset =>
    if i ≥ 0 then do
      let x ← input[i.toNat]?
      let p ← prev[i.toNat]?
      if p = -1 then pure (subset ++ [x])
      else walkBack input prev fuel p (subset ++ [x])
    else pure subset

/-! ## The two functions -/

/-- The call `sort(input.begin(), input.end())`, line 36: the ascending sort. -/
def sortAsc (input : List Int) : List Int := input.insertionSort (· ≤ ·)

/-- The function `findLargestDivisibleSubset`, lines 28-92.  The walk-back loop
is given `n` iterations, which the theorems show to be enough. -/
def findLargestDivisibleSubset (input : List Int) : Option (List Int) :=
  if input.isEmpty then some []
  else do
    let sorted := sortAsc input
    let n := sorted.length
    let t ← fillTables sorted n
    walkBack sorted t.prev n (t.maxIndex : Int) []

/-- The reordering loop of `biggest_divisible_conglomerate`, lines 104-108:
`for (int i = input.size() - 1; i >= 0; --i) if (find(subset...) != subset.end())
orderedResult.push_back(input[i]);`.  The first argument is `i + 1`, so that
the loop ends when it reaches `0`. -/
def reorderLoop (input subset : List Int) : Nat → List Int → Option (List Int)
  | 0, orderedResult => some orderedResult
  | i + 1, orderedResult => do
    let x ← input[i]?
    if x ∈ subset then reorderLoop input subset i (orderedResult ++ [x])
    else reorderLoop input subset i orderedResult

/-- The function `biggest_divisible_conglomerate`, lines 95-111. -/
def biggest_divisible_conglomerate (input : List Int) : Option (List Int) :=
  if input.isEmpty then some []
  else do
    let subset ← findLargestDivisibleSubset input
    reorderLoop input subset input.length []

/-! ## Specification vocabulary -/

/-- Entry `i` of a table, with `0` outside the table; used in statements only,
the program itself always goes through the checked lookup. -/
def ent (xs : List Int) (i : Nat) : Int := xs.getD i 0

/-- The divisibility test of line 73 between positions `j` and `i` of the
sorted vector: `sorted[i] % sorted[j] == 0`. -/
def Divides (S : List Int) (j i : Nat) : Prop := Int.tmod (ent S i) (ent S j) = 0

/-- Row `i` of the tables is correct with respect to the candidates `j < b`:
`dp[i]` is at least one, dominates `dp[j] + 1` for every candidate that divides,
and is either `1` with no predecessor, or reached through the predecessor
`prev[i] < b`, which is the first candidate of maximal `dp`. -/
structure RowOK (S dp prev : List Int) (i b : Nat) : Prop where
  one_le : 1 ≤ ent dp i
  best : ∀ j, j < b → Divides S j i → ent dp j + 1 ≤ ent dp i
  link : (ent prev i = -1 ∧ ent dp i = 1) ∨
    ∃ p : Nat, ent prev i = (p : Int) ∧ p < b ∧ Divides S p i ∧ ent dp i = ent dp p + 1 ∧
      ∀ j, j < p → Divides S j i → ent dp j < ent dp p

/-- How many candidates row `i` has seen when the outer loop is at `K` and the
inner loop at `k`. -/
def seen (K k i : Nat) : Nat := if i < K then i else if i = K then k else 0

/-- The loop invariant of the fill loop at outer index `K`, inner index `k`. -/
structure Inv (S : List Int) (t : Tables) (K k : Nat) : Prop where
  dp_len : t.dp.length = S.length
  prev_len : t.prev.length = S.length
  rows : ∀ i, i < S.length → RowOK S t.dp t.prev i (seen K k i)
  max_lt : t.maxIndex < K
  max_ge : ∀ i, i < K → ent t.dp i ≤ ent t.dp t.maxIndex
  max_first : ∀ i, i < t.maxIndex → ent t.dp i < ent t.dp t.maxIndex

/-- The values collected by following `prev` from index `i` down to an index
without predecessor, in the order in which the walk-back loop appends them. -/
inductive Walk (S prev : List Int) : Nat → List Int → Prop
  | last {i : Nat} (hi : i < S.length) (hp : i < prev.length) (h : ent prev i = -1) :
      Walk S prev i [ent S i]
  | step {i p : Nat} {c : List Int} (hi : i < S.length) (hp : i < prev.length)
      (h : ent prev i = (p : Int)) (hlt : p < i) (w : Walk S prev p c) :
      Walk S prev i (ent S i :: c)

/-- What a run on a non-empty list of positive integers establishes: the tables
`t` left by the fill loop, the chain `c` found by the walk-back loop, and the two
results. -/
structure Run (input : List Int) (t : Tables) (c : List Int) : Prop where
  fill : fillTables (sortAsc input) (sortAsc input).length = some t
  inv : Inv (sortAsc input) t (sortAsc input).length 0
  walk : Walk (sortAsc input) t.prev t.maxIndex c
  len : (c.length : Int) = ent t.dp t.maxIndex
  subset : findLargestDivisibleSubset input = some c
  result : biggest_divisible_conglomerate input =
    some (input.reverse.filter (fun x => decide (x ∈ c)))

/-- Index `b` is the predecessor recorded for index `a` and lies below it: one
step `i = prev[i]` of the walk-back loop. -/
def Linked (prev : List Int) (a b : Nat) : Prop := ent prev a = (b : Int) ∧ b < a

/-- Two consecutive members `a`, `b` of an index sequence of the sorted vector
as counted by `dp`: increasing, with `sorted[a]` dividing `sorted[b]`. -/
def DivStep (S : List Int) (a b : Nat) : Prop := a < b ∧ ent S a ∣ ent S b

/-! ## Basic facts about table entries -/

theorem get_of_lt {xs : List Int} {i : Nat} (h : i < xs.length) : xs[i]? = some (ent xs i) := by
  simp [ent, List.getD, List.getElem?_eq_getElem h]

theorem ent_of_get {xs : List Int} {i : Nat} {v : Int} (h : xs[i]? = some v) : ent xs i = v := by
  simp [ent, List.getD, h]

theorem lt_of_get {xs : List Int} {i : Nat} {v : Int} (h : xs[i]? = some v) : i < xs.length := by
  by_contra hc
  rw [List.getElem?_eq_none (by omega)] at h
  exact Option.noConfusion h

theorem ent_mem {xs : List Int} {i : Nat} (h : i < xs.length) : ent xs i ∈ xs :=
  List.mem_iff_getElem?.2 ⟨i, get_of_lt h⟩

theorem ent_set_self {xs : List Int} {i : Nat} (v : Int) (h : i < xs.length) :
    ent (xs.set i v) i = v := by
  simp [ent, List.getD, List.getElem?_set, h]

theorem ent_set_ne {xs : List Int} {i j : Nat} (v : Int) (h : i ≠ j) :
    ent (xs.set i v) j = ent xs j := by
  simp [ent, List.getD, List.getElem?_set, h]

theorem ent_replicate {n i : Nat} (a : Int) (h : i < n) : ent (List.replicate n a) i = a := by
  simp [ent, List.getD, List.getElem?_replicate, h]

theorem cmod_pos {a b : Int} (hb : 0 < b) : cmod a b = some (Int.tmod a b) := by
  unfold cmod
  rw [if_neg]
  omega

theorem seen_le (K k i : Nat) (hk : k ≤ K) : seen K k i ≤ i := by
  unfold seen
  split_ifs <;> omega

/-! ## The fill loop maintains the invariant -/

theorem Inv.keep {S : List Int} {t : Tables} {K k : Nat} (h : Inv S t K k) (hK : K < S.length)
    (hc : Divides S k K → ent t.dp k + 1 ≤ ent t.dp K) : Inv S t K (k + 1) := by
  refine { h with rows := ?_ }
  intro i hi
  by_cases hiK : i = K
  · subst hiK
    have hrow := h.rows i hi
    have e1 : seen i k i = k := by simp [seen]
    have e2 : seen i (k + 1) i = k + 1 := by simp [seen]
    rw [e1] at hrow
    rw [e2]
    refine ⟨hrow.one_le, ?_, ?_⟩
    · intro j hj hd
      by_cases hjk : j = k
      · subst hjk; exact hc hd
      · exact hrow.best j (by omega) hd
    · rcases hrow.link with h1 | ⟨p, hp1, hp2, hp3⟩
      · exact Or.inl h1
      · exact Or.inr ⟨p, hp1, by omega, hp3⟩
  · have e : seen K (k + 1) i = seen K k i := by simp [seen, hiK]
    rw [e]; exact h.rows i hi

theorem Inv.update {S : List Int} {t : Tables} {K k : Nat} (h : Inv S t K k) (hK : K < S.length)
    (hk : k < K) (hd : Divides S k K) (hgt : ent t.dp k + 1 > ent t.dp K) :
    Inv S { dp := t.dp.set K (ent t.dp k + 1), prev := t.prev.set K (k : Int),
            maxIndex := t.maxIndex } K (k + 1) := by
  have hKdp : K < t.dp.length := by rw [h.dp_len]; exact hK
  have hKprev : K < t.prev.length := by rw [h.prev_len]; exact hK
  have hrowK := h.rows K hK
  have hseenK : seen K k K = k := by simp [seen]
  rw [hseenK] at hrowK
  have hrowk := h.rows k (by omega)
  have hmax := h.max_lt
  refine ⟨by simp [h.dp_len], by simp [h.prev_len], ?_, hmax, ?_, ?_⟩
  · intro i hi
    by_cases hiK : i = K
    · subst hiK
      have e2 : seen i (k + 1) i = k + 1 := by simp [seen]
      rw [e2]
      refine ⟨?_, ?_, Or.inr ⟨k, ?_, by omega, hd, ?_, ?_⟩⟩
      · simp only [ent_set_self _ hKdp]
        have := hrowk.one_le
        omega
      · intro j hj hdj
        simp only [ent_set_self _ hKdp]
        rw [ent_set_ne _ (by omega : i ≠ j)]
        by_cases hjk : j = k
        · subst hjk; omega
        · have := hrowK.best j (by omega) hdj
          omega
      · simp only [ent_set_self _ hKprev]
      · simp only [ent_set_self _ hKdp]
        rw [ent_set_ne _ (by omega : i ≠ k)]
      · intro j hj hdj
        rw [ent_set_ne _ (by omega : i ≠ j), ent_set_ne _ (by omega : i ≠ k)]
        have := hrowK.best j hj hdj
        omega
    · have e : seen K (k + 1) i = seen K k i := by simp [seen, hiK]
      rw [e]
      have hrow := h.rows i hi
      have hle := seen_le K k i (by omega)
      have hne : ∀ j, j < seen K k i → K ≠ j := by
        intro j hj hKj
        subst hKj
        unfold seen at hj
        split_ifs at hj <;> omega
      refine ⟨?_, ?_, ?_⟩
      · rw [ent_set_ne _ (Ne.symm hiK)]; exact hrow.one_le
      · intro j hj hdj
        rw [ent_set_ne _ (Ne.symm hiK), ent_set_ne _ (hne j hj)]
        exact hrow.best j hj hdj
      · rw [ent_set_ne _ (Ne.symm hiK), ent_set_ne _ (Ne.symm hiK)]
        rcases hrow.link with h1 | ⟨p, hp1, hp2, hp3, hp4, hp5⟩
        · exact Or.inl h1
        · refine Or.inr ⟨p, hp1, hp2, hp3, ?_, ?_⟩
          · rw [ent_set_ne _ (hne p hp2)]; exact hp4
          · intro j hj hdj
            rw [ent_set_ne _ (hne j (by omega)), ent_set_ne _ (hne p hp2)]
            exact hp5 j hj hdj
  · intro i hi
    simp only
    rw [ent_set_ne _ (by omega : K ≠ i), ent_set_ne _ (by omega : K ≠ t.maxIndex)]
    exact h.max_ge i hi
  · intro i hi
    simp only at hi ⊢
    rw [ent_set_ne _ (by omega : K ≠ i), ent_set_ne _ (by omega : K ≠ t.maxIndex)]
    exact h.max_first i hi

theorem innerStep_inv {S : List Int} {t : Tables} {K k : Nat}
    (hpos : ∀ x ∈ S, 0 < x) (hK : K < S.length) (hk : k < K) (h : Inv S t K k) :
    ∃ t', innerStep S K t k = some t' ∧ Inv S t' K (k + 1) := by
  have hkS : k < S.length := by omega
  have hxi := get_of_lt hK
  have hxj := get_of_lt hkS
  have hposj : 0 < ent S k := hpos _ (ent_mem hkS)
  have hdj := @get_of_lt t.dp k (by rw [h.dp_len]; omega)
  have hdi := @get_of_lt t.dp K (by rw [h.dp_len]; omega)
  have hrowK := h.rows K hK
  have hseenK : seen K k K = k := by simp [seen]
  rw [hseenK] at hrowK
  have hrowk := h.rows k hkS
  unfold innerStep
  simp only [hxi, hxj, cmod_pos hposj, Option.bind_eq_bind, Option.some_bind, hdj, hdi]
  by_cases hr : Int.tmod (ent S K) (ent S k) = 0
  · simp only [hr, if_true]
    by_cases hgt : ent t.dp k + 1 > ent t.dp K
    · simp only [hgt, if_true, store, h.dp_len, h.prev_len, hK]
      exact ⟨_, rfl, h.update hK hk hr hgt⟩
    · simp [hgt]; exact h.keep hK (fun _ => by omega)
  · simp [hr]; exact h.keep hK (fun hd => absurd hd hr)

theorem innerLoop_inv {S : List Int} {t : Tables} {K : Nat}
    (hpos : ∀ x ∈ S, 0 < x) (hK : K < S.length) (h : Inv S t K 0) :
    ∀ k, k ≤ K → ∃ t', (List.range k).foldlM (innerStep S K) t = some t' ∧ Inv S t' K k := by
  intro k
  induction k with
  | zero => intro _; exact ⟨t, rfl, h⟩
  | succ k ih =>
    intro hk
    obtain ⟨t1, h1, hinv1⟩ := ih (by omega)
    obtain ⟨t2, h2, hinv2⟩ := innerStep_inv hpos hK (by omega : k < K) hinv1
    refine ⟨t2, ?_, hinv2⟩
    rw [List.range_succ, List.foldlM_append, h1]
    simp [h2]

theorem seen_next (K i : Nat) : seen (K + 1) 0 i = seen K K i := by
  unfold seen
  split_ifs <;> omega

theorem outerStep_inv {S : List Int} {t : Tables} {K : Nat}
    (hpos : ∀ x ∈ S, 0 < x) (hK : K < S.length) (h : Inv S t K 0) :
    ∃ t', outerStep S t K = some t' ∧ Inv S t' (K + 1) 0 := by
  obtain ⟨t1, h1, hinv⟩ := innerLoop_inv hpos hK h K (le_refl K)
  have hmax := hinv.max_lt
  have hdi := @get_of_lt t1.dp K (by rw [hinv.dp_len]; omega)
  have hdm := @get_of_lt t1.dp t1.maxIndex (by rw [hinv.dp_len]; omega)
  have hrows : ∀ i, i < S.length → RowOK S t1.dp t1.prev i (seen (K + 1) 0 i) := by
    intro i hi
    rw [seen_next]
    exact hinv.rows i hi
  unfold outerStep innerLoop
  simp only [h1, Option.bind_eq_bind, Option.some_bind, hdi, hdm]
  by_cases hgt : ent t1.dp K > ent t1.dp t1.maxIndex
  · simp only [hgt, if_true]
    refine ⟨_, rfl, hinv.dp_len, hinv.prev_len, hrows, by simp, ?_, ?_⟩
    · intro i hi
      simp only
      by_cases hiK : i = K
      · subst hiK; exact le_refl _
      · have := hinv.max_ge i (by omega)
        omega
    · intro i hi
      simp only at hi ⊢
      have := hinv.max_ge i hi
      omega
  · simp only [hgt, if_false]
    refine ⟨_, rfl, hinv.dp_len, hinv.prev_len, hrows, by omega, ?_, hinv.max_first⟩
    intro i hi
    by_cases hiK : i = K
    · subst hiK; omega
    · exact hinv.max_ge i (by omega)

theorem initTables_inv {S : List Int} : Inv S (initTables S.length) 1 0 := by
  refine ⟨by simp [initTables], by simp [initTables], ?_, by simp [initTables], ?_, ?_⟩
  · intro i hi
    have hs : seen 1 0 i = 0 := by
      unfold seen
      split_ifs <;> omega
    rw [hs]
    refine ⟨?_, ?_, Or.inl ⟨?_, ?_⟩⟩
    · simp [initTables, ent_replicate _ hi]
    · intro j hj; omega
    · simp [initTables, ent_replicate _ hi]
    · simp [initTables, ent_replicate _ hi]
  · intro i hi
    have : i = 0 := by omega
    subst this
    simp [initTables]
  · intro i hi
    simp [initTables] at hi

theorem outerLoop_inv {S : List Int} (hpos : ∀ x ∈ S, 0 < x) :
    ∀ m, m + 1 ≤ S.length →
      ∃ t, (List.range' 1 m).foldlM (outerStep S) (initTables S.length) = some t ∧
        Inv S t (m + 1) 0 := by
  intro m
  induction m with
  | zero => intro hm; exact ⟨_, rfl, initTables_inv⟩
  | succ m ih =>
    intro hm
    obtain ⟨t1, h1, hinv1⟩ := ih (by omega)
    obtain ⟨t2, h2, hinv2⟩ := outerStep_inv hpos (by omega : m + 1 < S.length) hinv1
    refine ⟨t2, ?_, hinv2⟩
    rw [List.range'_concat, List.foldlM_append, h1]
    simp [h2, Nat.add_comm]

/-- The fill loop succeeds on positive input and establishes the invariant for
every row. -/
theorem fillTables_inv {S : List Int} (hpos : ∀ x ∈ S, 0 < x) (hn : 0 < S.length) :
    ∃ t, fillTables S S.length = some t ∧ Inv S t S.length 0 := by
  obtain ⟨t, h1, h2⟩ := outerLoop_inv hpos (S.length - 1) (by omega)
  have e : S.length - 1 + 1 = S.length := by omega
  rw [e] at h2
  exact ⟨t, h1, h2⟩

/-! ## The finished tables -/

theorem Inv.row {S : List Int} {t : Tables} (h : Inv S t S.length 0) {i : Nat}
    (hi : i < S.length) : RowOK S t.dp t.prev i i := by
  have := h.rows i hi
  have e : seen S.length 0 i = i := by simp [seen, hi]
  rwa [e] at this

/-- From every index of the finished tables a walk along `prev` exists, and it
has `dp[i]` elements. -/
theorem walk_exists {S : List Int} {t : Tables} (h : Inv S t S.length 0) :
    ∀ i, i < S.length → ∃ c, Walk S t.prev i c ∧ (c.length : Int) = ent t.dp i := by
  intro i
  induction i using Nat.strong_induction_on with
  | _ i ih =>
    intro hi
    have hrow := h.row hi
    have hpl : i < t.prev.length := by rw [h.prev_len]; exact hi
    rcases hrow.link with ⟨h1, h2⟩ | ⟨p, hp1, hp2, _, hp4, _⟩
    · exact ⟨_, Walk.last hi hpl h1, by simp [h2]⟩
    · obtain ⟨c, hc, hlen⟩ := ih p hp2 (by omega)
      refine ⟨_, Walk.step hi hpl hp1 hp2 hc, ?_⟩
      simp only [List.length_cons, Nat.cast_add, Nat.cast_one]
      omega

theorem Walk.length_le {S prev : List Int} {i : Nat} {c : List Int} (w : Walk S prev i c) :
    c.length ≤ i + 1 := by
  induction w with
  | last => simp
  | step _ _ _ hlt _ ih => simp only [List.length_cons]; omega

/-- No table entry exceeds its index plus one, hence the input size: the
increments on line 74 stay far from the range of `int`. -/
theorem dp_le_index {S : List Int} {t : Tables} (h : Inv S t S.length 0) {i : Nat}
    (hi : i < S.length) : ent t.dp i ≤ (i : Int) + 1 := by
  obtain ⟨c, hw, hc⟩ := walk_exists h i hi
  have := hw.length_le
  omega

theorem Walk.ne_nil {S prev : List Int} {i : Nat} {c : List Int} (w : Walk S prev i c) :
    ent S i ∈ c := by
  cases w <;> simp

theorem Walk.mem {S prev : List Int} {i : Nat} {c : List Int} (w : Walk S prev i c) :
    ∀ x ∈ c, ∃ j, j ≤ i ∧ j < S.length ∧ x = ent S j := by
  induction w with
  | @last i hi _ _ =>
    intro x hx
    simp only [List.mem_singleton] at hx
    exact ⟨i, le_refl _, hi, hx⟩
  | @step i p c hi _ _ hlt _ ih =>
    intro x hx
    rcases List.mem_cons.1 hx with hx | hx
    · exact ⟨i, le_refl _, hi, hx⟩
    · obtain ⟨j, hj1, hj2, hj3⟩ := ih x hx
      exact ⟨j, by omega, hj2, hj3⟩

/-- The walk-back loop computes the walk, provided it is given at least as many
iterations as the walk has elements. -/
theorem walkBack_of_walk {S prev : List Int} {i : Nat} {c : List Int} (w : Walk S prev i c) :
    ∀ fuel acc, c.length ≤ fuel → walkBack S prev fuel (i : Int) acc = some (acc ++ c) := by
  induction w with
  | @last i hi hp h =>
    intro fuel acc hf
    cases fuel with
    | zero => simp at hf
    | succ fuel =>
      have h1 := get_of_lt hi
      have h2 := get_of_lt hp
      simp [walkBack, h1, h2, h]
  | @step i p c hi hp h hlt _ ih =>
    intro fuel acc hf
    cases fuel with
    | zero => simp at hf
    | succ fuel =>
      have h1 := get_of_lt hi
      have h2 := get_of_lt hp
      have hne : ¬ ((p : Int) = -1) := by omega
      simp only [List.length_cons] at hf
      simp [walkBack, h1, h2, h, hne, ih fuel (acc ++ [ent S i]) (by omega)]

/-! ## Equal values in the sorted vector -/

theorem ent_eq_getElem {xs : List Int} {i : Nat} (h : i < xs.length) : ent xs i = xs[i] := by
  simp [ent, List.getD, List.getElem?_eq_getElem h]

theorem ent_mono {S : List Int} (hs : S.Sorted (· ≤ ·)) {j i : Nat} (hji : j ≤ i)
    (hi : i < S.length) : ent S j ≤ ent S i := by
  rcases Nat.eq_or_lt_of_le hji with e | hlt
  · subst e; exact le_refl _
  · rw [ent_eq_getElem hi, ent_eq_getElem (by omega : j < S.length)]
    exact (List.pairwise_iff_getElem.1 hs) j i (by omega) hi hlt

theorem divides_self (S : List Int) (i : Nat) : Divides S i i := by
  simp [Divides]

theorem Divides.dvd {S : List Int} {j i : Nat} (h : Divides S j i) : ent S j ∣ ent S i :=
  Int.dvd_of_tmod_eq_zero h

theorem divides_of_dvd {S : List Int} {j i : Nat} (h : ent S j ∣ ent S i) : Divides S j i :=
  Int.tmod_eq_zero_of_dvd h

/-- A copy of the preceding value extends the chain of that value by one and has
it as predecessor. -/
theorem adjacent_eq {S : List Int} {t : Tables} (h : Inv S t S.length 0) {i : Nat}
    (hi : i + 1 < S.length) (he : ent S (i + 1) = ent S i) :
    ent t.prev (i + 1) = (i : Int) ∧ ent t.dp (i + 1) = ent t.dp i + 1 := by
  have hrow := h.row hi
  have hrowi := h.row (by omega : i < S.length)
  have hd : Divides S i (i + 1) := by unfold Divides; rw [he]; exact divides_self S i
  have hb := hrow.best i (by omega) hd
  have h1 := hrowi.one_le
  rcases hrow.link with ⟨_, h2⟩ | ⟨p, hp1, hp2, hp3, hp4, _⟩
  · omega
  · have hpi : p = i := by
      by_contra hne
      have hd2 : Divides S p i := by unfold Divides at hp3 ⊢; rw [← he]; exact hp3
      have := hrowi.best p (by omega) hd2
      omega
    subst hpi
    exact ⟨hp1, hp4⟩

/-- When the predecessor of `m` is followed by a copy of its value, that copy
is `m` itself. -/
theorem pred_last_copy {S : List Int} {t : Tables} (h : Inv S t S.length 0) {m p : Nat}
    (hm : m < S.length) (hp : ent t.prev m = (p : Int)) (hpm : p < m)
    (he : ent S (p + 1) = ent S p) : p + 1 = m := by
  by_contra hne
  have hrow := h.row hm
  obtain ⟨_, hdp⟩ := adjacent_eq h (by omega : p + 1 < S.length) he
  rcases hrow.link with ⟨h1, _⟩ | ⟨q, hq1, _, hq3, hq4, _⟩
  · omega
  · have hqp : q = p := by omega
    subst hqp
    have hd : Divides S (q + 1) m := by unfold Divides at hq3 ⊢; rw [he]; exact hq3
    have := hrow.best (q + 1) (by omega) hd
    omega

/-- The value at `maxIndex` is not repeated at the next index. -/
theorem max_last_copy {S : List Int} {t : Tables} (h : Inv S t S.length 0)
    (hi : t.maxIndex + 1 < S.length) : ent S (t.maxIndex + 1) ≠ ent S t.maxIndex := by
  intro he
  obtain ⟨_, hdp⟩ := adjacent_eq h hi he
  have := h.max_ge (t.maxIndex + 1) hi
  omega

/-- A row whose predecessor is absent, or holds a different value, is the first
occurrence of its value. -/
theorem first_copy {S : List Int} {t : Tables} (hs : S.Sorted (· ≤ ·))
    (h : Inv S t S.length 0) {i : Nat} (hi : i < S.length)
    (hp : ent t.prev i = -1 ∨ ∃ p : Nat, ent t.prev i = (p : Int) ∧ ent S p ≠ ent S i) :
    ∀ j, j < i → ent S j ≠ ent S i := by
  intro j hj he
  obtain ⟨k, rfl⟩ : ∃ k, i = k + 1 := ⟨i - 1, by omega⟩
  have h1 : ent S j ≤ ent S k := ent_mono hs (by omega) (by omega)
  have h2 : ent S k ≤ ent S (k + 1) := ent_mono hs (by omega) hi
  have hek : ent S (k + 1) = ent S k := by omega
  obtain ⟨hprev, _⟩ := adjacent_eq h hi hek
  rcases hp with hp | ⟨p, hp1, hp2⟩
  · omega
  · have : p = k := by omega
    subst this
    exact hp2 hek.symm

theorem take_succ_ent {S : List Int} {i : Nat} (hi : i < S.length) :
    S.take (i + 1) = S.take i ++ [ent S i] := by
  rw [List.take_succ, get_of_lt hi]
  rfl

theorem count_take_eq {S : List Int} (v : Int) (a : Nat) :
    ∀ b, a ≤ b → b ≤ S.length → (∀ j, a ≤ j → j < b → ent S j ≠ v) →
      (S.take b).count v = (S.take a).count v := by
  intro b hab
  induction b, hab using Nat.le_induction with
  | base => intro _ _; rfl
  | succ b hab ih =>
    intro hb hne
    rw [take_succ_ent (by omega : b < S.length), List.count_append,
      ih (by omega) (fun j h1 h2 => hne j h1 (by omega))]
    have := hne b hab (by omega)
    simp [List.count_cons, this]

/-- Every value on a walk from `i` occurs on it as often as among the first
`i + 1` entries of the sorted vector. -/
theorem Walk.count_eq {S : List Int} {t : Tables} (hs : S.Sorted (· ≤ ·))
    (h : Inv S t S.length 0) {i : Nat} {c : List Int} (w : Walk S t.prev i c) :
    ∀ v ∈ c, c.count v = (S.take (i + 1)).count v := by
  induction w with
  | @last i hi hp hprev =>
    intro v hv
    simp only [List.mem_singleton] at hv
    subst hv
    have h0 : (S.take i).count (ent S i) = (S.take 0).count (ent S i) :=
      count_take_eq (ent S i) 0 i (Nat.zero_le _) (by omega)
        (fun j _ hj => first_copy hs h hi (Or.inl hprev) j hj)
    rw [take_succ_ent hi, List.count_append, h0]
    simp
  | @step i p c hi hp hprev hlt w ih =>
    intro v hv
    have hpS : p < S.length := by omega
    by_cases hpe : ent S p = ent S i
    · have hpi : p + 1 = i := by
        obtain ⟨k, rfl⟩ : ∃ k, i = k + 1 := ⟨i - 1, by omega⟩
        have h1 : ent S p ≤ ent S k := ent_mono hs (by omega) (by omega)
        have h2 : ent S k ≤ ent S (k + 1) := ent_mono hs (by omega) hi
        obtain ⟨hk, _⟩ := adjacent_eq h hi (by omega)
        omega
      subst hpi
      have hvc : v ∈ c := by
        rcases List.mem_cons.1 hv with e | e
        · rw [e, ← hpe]; exact w.ne_nil
        · exact e
      rw [take_succ_ent hi, List.count_append, ← ih v hvc]
      simp [List.count_cons]
    · by_cases hvi : v = ent S i
      · subst hvi
        have hnc : ent S i ∉ c := by
          intro hc
          obtain ⟨j, hj1, hj2, hj3⟩ := w.mem _ hc
          have h1 : ent S j ≤ ent S p := ent_mono hs hj1 hpS
          have h2 : ent S p ≤ ent S i := ent_mono hs (by omega) hi
          omega
        have h0 : (S.take i).count (ent S i) = (S.take 0).count (ent S i) :=
          count_take_eq (ent S i) 0 i (Nat.zero_le _) (by omega)
            (fun j _ hj => first_copy hs h hi (Or.inr ⟨p, hprev, hpe⟩) j hj)
        rw [take_succ_ent hi, List.count_append, h0, List.count_cons,
          List.count_eq_zero_of_not_mem hnc]
        simp
      · have hvc : v ∈ c := by
          rcases List.mem_cons.1 hv with e | e
          · exact absurd e hvi
          · exact e
        have hrest : (S.take (i + 1)).count v = (S.take (p + 1)).count v := by
          apply count_take_eq v (p + 1) (i + 1) (by omega) (by omega)
          intro j hj1 hj2 hj3
          obtain ⟨k, hk1, hk2, hk3⟩ := w.mem _ hvc
          have h1 : ent S k ≤ ent S p := ent_mono hs hk1 hpS
          have h2 : ent S p ≤ ent S (p + 1) := ent_mono hs (by omega) (by omega)
          have h3 : ent S (p + 1) ≤ ent S j := ent_mono hs hj1 (by omega)
          have hpi := pred_last_copy h hi hprev hlt (by omega)
          have : j = i := by omega
          subst this
          exact hvi hj3.symm
        have hne : ¬ (ent S i = v) := fun e => hvi e.symm
        rw [hrest, ← ih v hvc, List.count_cons]
        simp [hne]

/-- The walk from `maxIndex` holds every copy of each of its values. -/
theorem Walk.count_max {S : List Int} {t : Tables} (hs : S.Sorted (· ≤ ·))
    (h : Inv S t S.length 0) {c : List Int} (w : Walk S t.prev t.maxIndex c) :
    ∀ v ∈ c, c.count v = S.count v := by
  intro v hv
  have hm := h.max_lt
  rw [w.count_eq hs h v hv]
  have hall : (S.take S.length).count v = (S.take (t.maxIndex + 1)).count v := by
    apply count_take_eq v (t.maxIndex + 1) S.length (by omega) (le_refl _)
    intro j hj1 hj2 hj3
    obtain ⟨k, hk1, hk2, hk3⟩ := w.mem _ hv
    have h1 : ent S k ≤ ent S t.maxIndex := ent_mono hs hk1 hm
    have h2 : ent S t.maxIndex ≤ ent S (t.maxIndex + 1) := ent_mono hs (by omega) (by omega)
    have h3 : ent S (t.maxIndex + 1) ≤ ent S j := ent_mono hs hj1 hj2
    exact max_last_copy h (by omega) (by omega)
  rw [← hall, List.take_length]

/-! ## Shape of a walk -/

theorem Walk.head {S prev : List Int} {i : Nat} {c : List Int} (w : Walk S prev i c) :
    c.head? = some (ent S i) := by
  cases w <;> rfl

/-- Each element of a walk is divisible by the element that follows it. -/
theorem Walk.chain {S : List Int} {t : Tables} (h : Inv S t S.length 0) {i : Nat}
    {c : List Int} (w : Walk S t.prev i c) : List.Chain' (fun a b => b ∣ a) c := by
  induction w with
  | last => exact List.chain'_singleton _
  | @step i p c hi hp hprev hlt w ih =>
    rw [List.chain'_cons']
    refine ⟨?_, ih⟩
    intro y hy
    rw [w.head] at hy
    simp only [Option.mem_def, Option.some.injEq] at hy
    subst hy
    rcases (h.row hi).link with ⟨h1, _⟩ | ⟨q, hq1, _, hq3, _, _⟩
    · omega
    · have : q = p := by omega
      subst this
      exact hq3.dvd

/-- A walk is non-increasing. -/
theorem Walk.sorted {S prev : List Int} (hs : S.Sorted (· ≤ ·)) {i : Nat} {c : List Int}
    (w : Walk S prev i c) : c.Sorted (· ≥ ·) := by
  induction w with
  | last => exact List.sorted_singleton _
  | @step i p c hi hp hprev hlt w ih =>
    rw [List.sorted_cons]
    refine ⟨?_, ih⟩
    intro b hb
    obtain ⟨j, hj1, _, hj3⟩ := w.mem b hb
    rw [hj3]
    exact ent_mono hs (by omega) hi

/-! ## Optimality of the length table -/

/-- A divisibility chain picked from the first `k` entries of the sorted vector
is no longer than the table entry of the position where it ends. -/
theorem chain_le_dp {S : List Int} {t : Tables} (h : Inv S t S.length 0) :
    ∀ k, k ≤ S.length → ∀ l : List Int, l.Sublist (S.take k) → List.Chain' (· ∣ ·) l →
      l ≠ [] → ∃ i, i < k ∧ l.getLast? = some (ent S i) ∧ (l.length : Int) ≤ ent t.dp i := by
  intro k
  induction k with
  | zero =>
    intro _ l hl _ hne
    simp only [List.take_zero, List.sublist_nil] at hl
    exact absurd hl hne
  | succ k ih =>
    intro hk l hl hch hne
    rw [take_succ_ent (by omega : k < S.length), List.sublist_append_iff] at hl
    obtain ⟨l1, l2, rfl, hl1, hl2⟩ := hl
    rcases List.sublist_singleton.1 hl2 with rfl | rfl
    · rw [List.append_nil] at hch hne ⊢
      obtain ⟨i, hi1, hi2, hi3⟩ := ih (by omega) l1 hl1 hch hne
      exact ⟨i, by omega, hi2, hi3⟩
    · refine ⟨k, by omega, List.getLast?_concat _, ?_⟩
      have hrow := h.row (by omega : k < S.length)
      by_cases hl1e : l1 = []
      · subst hl1e
        simpa using hrow.one_le
      · obtain ⟨hc1, _, hc3⟩ := List.chain'_append.1 hch
        obtain ⟨i, hi1, hi2, hi3⟩ := ih (by omega) l1 hl1 hc1 hl1e
        have hd : ent S i ∣ ent S k := hc3 (ent S i) (by simp [hi2]) (ent S k) (by simp)
        have := hrow.best i hi1 (divides_of_dvd hd)
        simp only [List.length_append, List.length_singleton, Nat.cast_add, Nat.cast_one]
        omega

/-! ## The reordering loop -/

theorem reorderLoop_eq (input subset : List Int) :
    ∀ k, k ≤ input.length → ∀ acc,
      reorderLoop input subset k acc =
        some (acc ++ (input.take k).reverse.filter (fun x => decide (x ∈ subset))) := by
  intro k
  induction k with
  | zero => intro _ acc; simp [reorderLoop]
  | succ k ih =>
    intro hk acc
    have hx := get_of_lt (by omega : k < input.length)
    rw [take_succ_ent (by omega : k < input.length)]
    by_cases hmem : ent input k ∈ subset
    · simp [reorderLoop, hx, hmem, ih (by omega)]
    · simp [reorderLoop, hx, hmem, ih (by omega)]

/-! ## A complete run -/

theorem sortAsc_perm (l : List Int) : (sortAsc l).Perm l := List.perm_insertionSort _ l

theorem sortAsc_sorted (l : List Int) : (sortAsc l).Sorted (· ≤ ·) :=
  List.sorted_insertionSort _ l

theorem bdc_of_subset {input c : List Int} (h : findLargestDivisibleSubset input = some c) :
    biggest_divisible_conglomerate input =
      some (input.reverse.filter (fun x => decide (x ∈ c))) := by
  unfold biggest_divisible_conglomerate
  split
  · rename_i he
    have : input = [] := by simpa using he
    subst this
    rfl
  · simp [h, reorderLoop_eq input c input.length (le_refl _) []]

theorem run_exists {input : List Int} (hpos : ∀ x ∈ input, 0 < x) (hne : input ≠ []) :
    ∃ t c, Run input t c := by
  have hposS : ∀ x ∈ sortAsc input, 0 < x := fun x hx => hpos x ((sortAsc_perm input).mem_iff.1 hx)
  have hlen : 0 < (sortAsc input).length := by
    rw [(sortAsc_perm input).length_eq]
    exact List.length_pos.2 hne
  obtain ⟨t, hfill, hinv⟩ := fillTables_inv hposS hlen
  obtain ⟨c, hw, hc⟩ := walk_exists hinv t.maxIndex hinv.max_lt
  have hwb := walkBack_of_walk hw (sortAsc input).length []
    (by have := hw.length_le; have := hinv.max_lt; omega)
  have hsub : findLargestDivisibleSubset input = some c := by
    unfold findLargestDivisibleSubset
    simp [hne, hfill, hwb]
  exact ⟨t, c, hfill, hinv, hw, hc, hsub, bdc_of_subset hsub⟩

/-- The result is a rearrangement of the chain. -/
theorem Run.perm {input : List Int} {t : Tables} {c : List Int} (r : Run input t c) :
    (input.reverse.filter (fun x => decide (x ∈ c))).Perm c := by
  rw [List.perm_iff_count]
  intro v
  by_cases hv : v ∈ c
  · rw [List.count_filter (by simpa using hv), (List.reverse_perm input).count_eq,
      ← (sortAsc_perm input).count_eq, r.walk.count_max (sortAsc_sorted input) r.inv v hv]
  · rw [List.count_eq_zero_of_not_mem hv, List.count_eq_zero_of_not_mem]
    simp [hv]

theorem Run.chain_mem {input : List Int} {t : Tables} {c : List Int} (r : Run input t c) :
    ∀ x ∈ c, x ∈ input := by
  intro x hx
  obtain ⟨j, _, hj, rfl⟩ := r.walk.mem x hx
  exact (sortAsc_perm input).mem_iff.1 (ent_mem hj)

theorem Run.result_length {input : List Int} {t : Tables} {c : List Int} (r : Run input t c) :
    t.dp[t.maxIndex]? = some (((input.reverse.filter (fun x => decide (x ∈ c))).length : Nat) : Int) := by
  have hm : t.maxIndex < t.dp.length := by rw [r.inv.dp_len]; exact r.inv.max_lt
  rw [get_of_lt hm, r.perm.length_eq, r.len]

/-- The ascending sort of the result is the chain read backwards. -/
theorem Run.sort_result {input : List Int} {t : Tables} {c : List Int} (r : Run input t c) :
    sortAsc (input.reverse.filter (fun x => decide (x ∈ c))) = c.reverse := by
  apply List.eq_of_perm_of_sorted (r := (· ≤ ·))
  · exact ((sortAsc_perm _).trans r.perm).trans (List.reverse_perm c).symm
  · exact sortAsc_sorted _
  · unfold List.Sorted
    rw [List.pairwise_reverse]
    exact r.walk.sorted (sortAsc_sorted input)

theorem findLargestDivisibleSubset_nil : findLargestDivisibleSubset [] = some [] := rfl

theorem biggest_divisible_conglomerate_nil : biggest_divisible_conglomerate [] = some [] := rfl

/-- A sub-multiset of the input whose ascending sort is a divisibility chain is
no longer than the chain found by the run. -/
theorem Run.chain_le {input : List Int} {t : Tables} {c : List Int} (r : Run input t c)
    {s : List Int} (hsub : s.Subperm input) (hchain : List.Chain' (· ∣ ·) (sortAsc s)) :
    s.length ≤ c.length := by
  rw [← (sortAsc_perm s).length_eq]
  by_cases hse : sortAsc s = []
  · simp [hse]
  · have hsp : (sortAsc s).Subperm (sortAsc input) :=
      ((sortAsc_perm s).subperm_right.2 hsub).trans (sortAsc_perm input).symm.subperm
    have hsl : (sortAsc s).Sublist (sortAsc input) :=
      List.sublist_of_subperm_of_sorted hsp (sortAsc_sorted s) (sortAsc_sorted input)
    rw [← List.take_length (l := sortAsc input)] at hsl
    obtain ⟨i, hi1, _, hi3⟩ :=
      chain_le_dp r.inv (sortAsc input).length (le_refl _) (sortAsc s) hsl hchain hse
    have h1 := r.inv.max_ge i hi1
    have h2 := r.len
    omega

/-- A list of positive integers in which each element divides the next is
already sorted. -/
theorem sortAsc_of_chain {l : List Int} (hpos : ∀ x ∈ l, 0 < x)
    (hchain : List.Chain' (· ∣ ·) l) : sortAsc l = l := by
  apply List.Sorted.insertionSort_eq
  have h1 : List.Chain' (· ≤ ·) l := by
    refine (List.Chain'.iff_mem.1 hchain).imp ?_
    intro a b h
    exact Int.le_of_dvd (hpos b h.2.1) h.2.2
  exact List.chain'_iff_pairwise.1 h1

/-! ## Index sequences -/

/-- An increasing index sequence with divisibility that ends at `i` has at most
`dp[i]` members. -/
theorem divsteps_le_dp {S : List Int} {t : Tables} (h : Inv S t S.length 0) :
    ∀ (l : List Nat), List.Chain' (DivStep S) l → ∀ i, l.getLast? = some i → i < S.length →
      (l.length : Int) ≤ ent t.dp i := by
  intro l
  induction l using List.reverseRecOn with
  | nil => intro _ i hi; simp at hi
  | append_singleton l a ih =>
    intro hch i hi hin
    rw [List.getLast?_concat] at hi
    cases hi
    have hrow := h.row hin
    by_cases hl : l = []
    · subst hl
      simpa using hrow.one_le
    · obtain ⟨hc1, _, hc3⟩ := List.chain'_append.1 hch
      obtain ⟨j, hj⟩ : ∃ j, l.getLast? = some j := by
        cases hg : l.getLast? with
        | none => exact absurd (List.getLast?_eq_none_iff.1 hg) hl
        | some j => exact ⟨j, rfl⟩
      have hstep : DivStep S j a := hc3 j (by simp [hj]) a (by simp)
      have h1 := ih hc1 j hj (by have := hstep.1; omega)
      have h2 := hrow.best j hstep.1 (divides_of_dvd hstep.2)
      simp only [List.length_append, List.length_singleton, Nat.cast_add, Nat.cast_one]
      omega

/-- An increasing index sequence with divisibility that ends at `i` and has
exactly `dp[i]` members exists. -/
theorem divsteps_exists {S : List Int} {t : Tables} (h : Inv S t S.length 0) :
    ∀ i, i < S.length → ∃ l : List Nat, l.getLast? = some i ∧ List.Chain' (DivStep S) l ∧
      (l.length : Int) = ent t.dp i := by
  intro i
  induction i using Nat.strong_induction_on with
  | _ i ih =>
    intro hi
    rcases (h.row hi).link with ⟨_, h2⟩ | ⟨p, _, hp2, hp3, hp4, _⟩
    · exact ⟨[i], rfl, List.chain'_singleton _, by simp [h2]⟩
    · obtain ⟨l, hl1, hl2, hl3⟩ := ih p hp2 (by omega)
      refine ⟨l ++ [i], List.getLast?_concat _, ?_, ?_⟩
      · rw [List.chain'_append]
        refine ⟨hl2, List.chain'_singleton _, ?_⟩
        intro x hx y hy
        rw [hl1] at hx
        simp only [Option.mem_def, Option.some.injEq, List.head?_cons] at hx hy
        subst hx hy
        exact ⟨hp2, hp3.dvd⟩
      · simp only [List.length_append, List.length_singleton, Nat.cast_add, Nat.cast_one]
        omega

/-- From every index the predecessor links form a strictly decreasing index path
that ends at an index without predecessor; the path has `dp[i]` members and
the walk from `i` reads the sorted vector along it. -/
theorem path_exists {S : List Int} {t : Tables} (h : Inv S t S.length 0) :
    ∀ i, i < S.length → ∃ l : List Nat, l.head? = some i ∧ List.Chain' (Linked t.prev) l ∧
      (∃ e, l.getLast? = some e ∧ ent t.prev e = -1) ∧ (∀ a ∈ l, a ≤ i) ∧
      (l.length : Int) = ent t.dp i ∧ Walk S t.prev i (l.map (ent S)) := by
  intro i
  induction i using Nat.strong_induction_on with
  | _ i ih =>
    intro hi
    have hpl : i < t.prev.length := by rw [h.prev_len]; exact hi
    rcases (h.row hi).link with ⟨h1, h2⟩ | ⟨p, hp1, hp2, _, hp4, _⟩
    · exact ⟨[i], rfl, List.chain'_singleton _, ⟨i, rfl, h1⟩, by simp, by simp [h2],
        Walk.last hi hpl h1⟩
    · obtain ⟨l, hl1, hl2, ⟨e, he1, he2⟩, hl4, hl5, hl6⟩ := ih p hp2 (by omega)
      have hlne : l ≠ [] := by
        intro hn
        subst hn
        simp at hl1
      refine ⟨i :: l, rfl, ?_, ⟨e, ?_, he2⟩, ?_, ?_, ?_⟩
      · rw [List.chain'_cons']
        refine ⟨?_, hl2⟩
        intro y hy
        rw [hl1] at hy
        simp only [Option.mem_def, Option.some.injEq] at hy
        subst hy
        exact ⟨hp1, hp2⟩
      · rw [List.getLast?_cons, he1]
        rfl
      · intro a ha
        rcases List.mem_cons.1 ha with rfl | ha
        · exact le_refl _
        · have := hl4 a ha
          omega
      · simp only [List.length_cons, Nat.cast_add, Nat.cast_one]
        omega
      · exact Walk.step hi hpl hp1 hp2 hl6

/-- The chain reached from an index is determined by the tables. -/
theorem Walk.unique {S prev : List Int} {i : Nat} {c d : List Int} (w : Walk S prev i c)
    (v : Walk S prev i d) : c = d := by
  have h1 := walkBack_of_walk w (c.length + d.length) [] (by omega)
  have h2 := walkBack_of_walk v (c.length + d.length) [] (by omega)
  rw [h1] at h2
  simpa using h2

/-- With fewer iterations than the walk has elements the walk-back loop does
not finish. -/
theorem walkBack_short {S prev : List Int} {i : Nat} {c : List Int} (w : Walk S prev i c) :
    ∀ fuel acc, fuel < c.length → walkBack S prev fuel (i : Int) acc = none := by
  induction w with
  | @last i hi hp h =>
    intro fuel acc hf
    have : fuel = 0 := by simpa using hf
    subst this
    rfl
  | @step i p c hi hp h hlt _ ih =>
    intro fuel acc hf
    cases fuel with
    | zero => rfl
    | succ fuel =>
      have h1 := get_of_lt hi
      have h2 := get_of_lt hp
      have hne : ¬ ((p : Int) = -1) := by omega
      simp only [List.length_cons] at hf
      simp [walkBack, h1, h2, h, hne, ih fuel (acc ++ [ent S i]) (by omega)]

/-! ## The claims -/

/-- Claim C1 (maximality): for a list of positive integers, every sub-multiset
`s` of the input whose ascending sort has each element dividing the next is at
most as long as the result of `biggest_divisible_conglomerate`. -/
theorem result_length_maximal (input s : List Int) (hpos : ∀ x ∈ input, 0 < x)
    (hsub : s.Subperm input) (hchain : List.Chain' (· ∣ ·) (sortAsc s)) :
    ∃ r, biggest_divisible_conglomerate input = some r ∧ s.length ≤ r.length := by
  by_cases hne : input = []
  · subst hne
    refine ⟨[], rfl, ?_⟩
    exact hsub.length_le
  · obtain ⟨t, c, r⟩ := run_exists hpos hne
    refine ⟨_, r.result, ?_⟩
    rw [r.perm.length_eq, ← (sortAsc_perm s).length_eq]
    by_cases hse : sortAsc s = []
    · simp [hse]
    · have hsp : (sortAsc s).Subperm (sortAsc input) :=
        ((sortAsc_perm s).subperm_right.2 hsub).trans (sortAsc_perm input).symm.subperm
      have hsl : (sortAsc s).Sublist (sortAsc input) :=
        List.sublist_of_subperm_of_sorted hsp (sortAsc_sorted s) (sortAsc_sorted input)
      rw [← List.take_length (l := sortAsc input)] at hsl
      obtain ⟨i, hi1, _, hi3⟩ :=
        chain_le_dp r.inv (sortAsc input).length (le_refl _) (sortAsc s) hsl hchain hse
      have h1 := r.inv.max_ge i hi1
      have h2 := r.len
      omega

/-- Witness for C1 on the input `[1, 2, 3]` with the chain `{1, 3}`. -/
theorem result_length_maximal_witness :
    (∀ x ∈ [1, 2, 3], (0 : Int) < x) ∧ List.Subperm [3, 1] [1, 2, 3] ∧
      List.Chain' (· ∣ ·) (sortAsc [3, 1]) ∧
      ∃ r, biggest_divisible_conglomerate [1, 2, 3] = some r ∧ [(3 : Int), 1].length ≤ r.length :=
  ⟨by decide, by decide, by simp [sortAsc],
    result_length_maximal [1, 2, 3] [3, 1] (by decide) (by decide) (by simp [sortAsc])⟩

/-- Claim C2 (divisibility): for a list of positive integers, in the ascending
sort of the result each element divides the next one, and any two elements of
the result are related by divisibility. -/
theorem result_sorted_divides (input : List Int) (hpos : ∀ x ∈ input, 0 < x) :
    ∃ r, biggest_divisible_conglomerate input = some r ∧
      List.Chain' (· ∣ ·) (sortAsc r) ∧ ∀ a ∈ r, ∀ b ∈ r, a ∣ b ∨ b ∣ a := by
  by_cases hne : input = []
  · subst hne
    exact ⟨[], rfl, by simp [sortAsc], by simp⟩
  · obtain ⟨t, c, r⟩ := run_exists hpos hne
    have hch : List.Chain' (· ∣ ·) (sortAsc (input.reverse.filter (fun x => decide (x ∈ c)))) := by
      rw [r.sort_result, List.chain'_reverse]
      exact r.walk.chain r.inv
    refine ⟨_, r.result, hch, ?_⟩
    have hpw : List.Pairwise (fun a b : Int => a ∣ b ∨ b ∣ a)
        (sortAsc (input.reverse.filter (fun x => decide (x ∈ c)))) :=
      (List.chain'_iff_pairwise.1 hch).imp (fun h => Or.inl h)
    have hsym : Symmetric (fun a b : Int => a ∣ b ∨ b ∣ a) := fun _ _ h => h.symm
    intro a ha b hb
    exact hpw.forall_of_forall hsym (fun x _ => Or.inl (dvd_refl x))
      ((sortAsc_perm _).mem_iff.2 ha) ((sortAsc_perm _).mem_iff.2 hb)

/-- Witness for C2 on the input `[4, 8, 2]`. -/
theorem result_sorted_divides_witness :
    (∀ x ∈ [4, 8, 2], (0 : Int) < x) ∧
      ∃ r, biggest_divisible_conglomerate [4, 8, 2] = some r ∧
        List.Chain' (· ∣ ·) (sortAsc r) ∧ ∀ a ∈ r, ∀ b ∈ r, a ∣ b ∨ b ∣ a :=
  ⟨by decide, result_sorted_divides [4, 8, 2] (by decide)⟩

/-- Claim C3 (result length): for a list of positive integers, duplicates
allowed, the result is a permutation of the chain returned by
`findLargestDivisibleSubset`, so the membership filter never takes more
occurrences of a value than the chain holds, and for a non-empty input the
length of the result is the entry `dp[maxIndex]` left by the fill loop. -/
theorem result_perm_chain (input : List Int) (hpos : ∀ x ∈ input, 0 < x) :
    ∃ chain r, findLargestDivisibleSubset input = some chain ∧
      biggest_divisible_conglomerate input = some r ∧
      r.Perm chain ∧ (∀ v, r.count v ≤ chain.count v) ∧
      (input ≠ [] → ∃ t, fillTables (sortAsc input) (sortAsc input).length = some t ∧
        t.dp[t.maxIndex]? = some ((r.length : Nat) : Int)) := by
  by_cases hne : input = []
  · subst hne
    exact ⟨[], [], rfl, rfl, List.Perm.refl _, fun _ => le_refl _, fun h => absurd rfl h⟩
  · obtain ⟨t, c, r⟩ := run_exists hpos hne
    exact ⟨c, _, r.subset, r.result, r.perm, fun v => (r.perm.count_eq v).le,
      fun _ => ⟨t, r.fill, r.result_length⟩⟩

/-- Witness for C3 on an input with duplicated values. -/
theorem result_perm_chain_witness :
    (∀ x ∈ [2, 3, 2, 4, 3], (0 : Int) < x) ∧
      ∃ chain r, findLargestDivisibleSubset [2, 3, 2, 4, 3] = some chain ∧
        biggest_divisible_conglomerate [2, 3, 2, 4, 3] = some r ∧
        r.Perm chain ∧ (∀ v, r.count v ≤ chain.count v) ∧
        (([2, 3, 2, 4, 3] : List Int) ≠ [] →
          ∃ t, fillTables (sortAsc [2, 3, 2, 4, 3]) (sortAsc [2, 3, 2, 4, 3]).length = some t ∧
            t.dp[t.maxIndex]? = some ((r.length : Nat) : Int)) :=
  ⟨by decide, result_perm_chain [2, 3, 2, 4, 3] (by decide)⟩

/-- Claim C4 (sub-multiset): whenever `biggest_divisible_conglomerate` returns
a result, every value occurs in it at most as often as in the input; and it
does return a result on every list of positive integers. -/
theorem result_submultiset (input : List Int) :
    (∀ r, biggest_divisible_conglomerate input = some r → ∀ v, r.count v ≤ input.count v) ∧
      ((∀ x ∈ input, 0 < x) → ∃ r, biggest_divisible_conglomerate input = some r) := by
  constructor
  · intro r hr v
    cases hc : findLargestDivisibleSubset input with
    | none =>
      unfold biggest_divisible_conglomerate at hr
      by_cases he : input = []
      · subst he
        rw [findLargestDivisibleSubset_nil] at hc
        exact Option.noConfusion hc
      · simp [he, hc] at hr
    | some c =>
      rw [bdc_of_subset hc] at hr
      cases hr
      rw [← (List.reverse_perm input).count_eq v]
      exact (List.filter_sublist _).count_le v
  · intro hpos
    by_cases hne : input = []
    · subst hne
      exact ⟨[], rfl⟩
    · obtain ⟨t, c, r⟩ := run_exists hpos hne
      exact ⟨_, r.result⟩

/-- Witness for C4 on the input `[4, 8, 2, 3]`. -/
theorem result_submultiset_witness :
    biggest_divisible_conglomerate [4, 8, 2, 3] = some [2, 8, 4] ∧
      ∀ v : Int, List.count v [2, 8, 4] ≤ List.count v [4, 8, 2, 3] :=
  ⟨by decide, (result_submultiset [4, 8, 2, 3]).1 [2, 8, 4] (by decide)⟩

/-- Claim C5 (output order): whenever `findLargestDivisibleSubset` returns a
chain, `biggest_divisible_conglomerate` returns exactly the reversed input
filtered to the values that occur in that chain, which is a subsequence of the
reversed input; and a chain is returned for every list of positive integers. -/
theorem result_order (input : List Int) :
    (∀ chain, findLargestDivisibleSubset input = some chain →
      biggest_divisible_conglomerate input =
        some (input.reverse.filter (fun x => decide (x ∈ chain))) ∧
      (input.reverse.filter (fun x => decide (x ∈ chain))).Sublist input.reverse) ∧
    ((∀ x ∈ input, 0 < x) → ∃ chain, findLargestDivisibleSubset input = some chain) := by
  constructor
  · intro chain hc
    exact ⟨bdc_of_subset hc, List.filter_sublist _⟩
  · intro hpos
    by_cases hne : input = []
    · subst hne
      exact ⟨[], rfl⟩
    · obtain ⟨t, c, r⟩ := run_exists hpos hne
      exact ⟨_, r.subset⟩

/-- Witness for C5 on the input `[4, 3, 8, 2]`, whose chain is `[8, 4, 2]`. -/
theorem result_order_witness :
    biggest_divisible_conglomerate [4, 3, 8, 2] =
        some (([4, 3, 8, 2] : List Int).reverse.filter (fun x => decide (x ∈ [8, 4, 2]))) ∧
      (([4, 3, 8, 2] : List Int).reverse.filter (fun x => decide (x ∈ [8, 4, 2]))).Sublist
        ([4, 3, 8, 2] : List Int).reverse :=
  (result_order [4, 3, 8, 2]).1 [8, 4, 2] (by decide)

/-- Claim C6 (empty input): both functions return the empty list on the empty
list, and on a non-empty list of positive integers both return a non-empty
list. -/
theorem empty_iff_empty :
    biggest_divisible_conglomerate [] = some [] ∧ findLargestDivisibleSubset [] = some [] ∧
      ∀ input : List Int, input ≠ [] → (∀ x ∈ input, 0 < x) →
        ∃ chain r, findLargestDivisibleSubset input = some chain ∧ chain ≠ [] ∧
          biggest_divisible_conglomerate input = some r ∧ r ≠ [] := by
  refine ⟨rfl, rfl, ?_⟩
  intro input hne hpos
  obtain ⟨t, c, r⟩ := run_exists hpos hne
  have hc : c ≠ [] := List.ne_nil_of_mem r.walk.ne_nil
  refine ⟨c, _, r.subset, hc, r.result, ?_⟩
  intro he
  have := r.perm
  rw [he] at this
  exact hc this.symm.eq_nil

/-- Witness for C6 on the input `[6, 4]`. -/
theorem empty_iff_empty_witness :
    ∃ chain r, findLargestDivisibleSubset [6, 4] = some chain ∧ chain ≠ [] ∧
      biggest_divisible_conglomerate [6, 4] = some r ∧ r ≠ [] :=
  empty_iff_empty.2.2 [6, 4] (by decide) (by decide)

/-- Claim C7 (single element): the result on `[x]` is `[x]` for every integer
`x`, in particular for every positive one: no remainder is computed on a
one-element input. -/
theorem single_element (x : Int) : biggest_divisible_conglomerate [x] = some [x] := by
  have hs : findLargestDivisibleSubset [x] = some [x] := by
    simp [findLargestDivisibleSubset, sortAsc, fillTables, initTables, walkBack]
  rw [bdc_of_subset hs]
  simp

/-- Witness for C7 at `x = 7`. -/
theorem single_element_witness : biggest_divisible_conglomerate [7] = some [7] :=
  single_element 7

/-- Claim C8 (all-equal input): for every positive integer `x` and every
`n ≥ 1` the result on `n` copies of `x` is `n` copies of `x`. -/
theorem all_equal (x : Int) (n : Nat) (hx : 0 < x) (hn : 1 ≤ n) :
    biggest_divisible_conglomerate (List.replicate n x) = some (List.replicate n x) := by
  have hpos : ∀ y ∈ List.replicate n x, 0 < y := by
    intro y hy
    rw [List.eq_of_mem_replicate hy]
    exact hx
  have hne : List.replicate n x ≠ [] := by
    intro he
    have := congrArg List.length he
    simp at this
    omega
  obtain ⟨t, c, r⟩ := run_exists hpos hne
  have hxc : x ∈ c := by
    have h1 := r.walk.ne_nil
    have h2 := List.eq_of_mem_replicate (r.chain_mem _ h1)
    rw [h2] at h1
    exact h1
  rw [r.result, List.reverse_replicate, List.filter_eq_self.2]
  intro y hy
  rw [List.eq_of_mem_replicate hy]
  simpa using hxc

/-- Witness for C8 with three copies of `5`. -/
theorem all_equal_witness :
    (0 : Int) < 5 ∧ 1 ≤ 3 ∧
      biggest_divisible_conglomerate (List.replicate 3 5) = some (List.replicate 3 5) :=
  ⟨by decide, by decide, all_equal 5 3 (by decide) (by decide)⟩

/-- Claim C9 (tie-break example): on `[1, 2, 3]` the result is `[2, 1]`; the
chain `{1, 2}` is chosen over the equally long `{1, 3}`. -/
theorem tie_break_example :
    biggest_divisible_conglomerate [1, 2, 3] = some [2, 1] ∧
      findLargestDivisibleSubset [1, 2, 3] = some [2, 1] := by
  decide

/-- Claim C10 (unsorted-input example): on `[4, 8, 2]` the result is
`[2, 8, 4]`. -/
theorem unsorted_example : biggest_divisible_conglomerate [4, 8, 2] = some [2, 8, 4] := by
  decide

/-- Claim C11 (full chain): on `[1, 2, 4, 8]` the result is `[8, 4, 2, 1]`, and
for every list of positive integers in which each element divides the next the
result is the reversed input. -/
theorem full_chain :
    biggest_divisible_conglomerate [1, 2, 4, 8] = some [8, 4, 2, 1] ∧
      ∀ input : List Int, (∀ x ∈ input, 0 < x) → List.Chain' (· ∣ ·) input →
        biggest_divisible_conglomerate input = some input.reverse := by
  refine ⟨by decide, ?_⟩
  intro input hpos hchain
  by_cases hne : input = []
  · subst hne
    rfl
  · obtain ⟨t, c, r⟩ := run_exists hpos hne
    have hsort : List.Chain' (· ∣ ·) (sortAsc input) := by
      rw [sortAsc_of_chain hpos hchain]
      exact hchain
    have hlen := r.chain_le (List.Subperm.refl input) hsort
    rw [r.result]
    congr 1
    apply List.Sublist.eq_of_length_le (List.filter_sublist _)
    rw [r.perm.length_eq, List.length_reverse]
    exact hlen

/-- Witness for C11 on the chain `[3, 3, 6, 12]`. -/
theorem full_chain_witness :
    (∀ x ∈ [3, 3, 6, 12], (0 : Int) < x) ∧
      biggest_divisible_conglomerate [3, 3, 6, 12] = some ([3, 3, 6, 12] : List Int).reverse :=
  ⟨by decide, full_chain.2 [3, 3, 6, 12] (by decide) (by simp; decide)⟩

/-- Claim C12 (length table): for a list of positive integers the fill loop
ends, and for every index `i` of the sorted copy `dp[i]` is at least `1` and is
the greatest length of an index sequence `i_1 < ... < i_k = i` in which
`sorted[i_t]` divides `sorted[i_(t+1)]`: one such sequence has `dp[i]` members and
none has more. -/
theorem dp_is_longest_chain (input : List Int) (hpos : ∀ x ∈ input, 0 < x) :
    ∃ t, fillTables (sortAsc input) (sortAsc input).length = some t ∧
      ∀ i, i < (sortAsc input).length →
        ∃ d, t.dp[i]? = some d ∧ 1 ≤ d ∧
          (∃ l : List Nat, l.getLast? = some i ∧ List.Chain' (DivStep (sortAsc input)) l ∧
            (l.length : Int) = d) ∧
          ∀ l : List Nat, l.getLast? = some i → List.Chain' (DivStep (sortAsc input)) l →
            (l.length : Int) ≤ d := by
  by_cases hne : input = []
  · subst hne
    refine ⟨initTables 0, rfl, ?_⟩
    intro i hi
    simp [sortAsc] at hi
  · obtain ⟨t, c, r⟩ := run_exists hpos hne
    refine ⟨t, r.fill, ?_⟩
    intro i hi
    have hdp : i < t.dp.length := by rw [r.inv.dp_len]; exact hi
    refine ⟨ent t.dp i, get_of_lt hdp, (r.inv.row hi).one_le, divsteps_exists r.inv i hi, ?_⟩
    intro l hl hch
    exact divsteps_le_dp r.inv l hch i hl hi

/-- Witness for C12 on the input `[4, 8, 2, 3]`. -/
theorem dp_is_longest_chain_witness :
    (∀ x ∈ [4, 8, 2, 3], (0 : Int) < x) ∧
      ∃ t, fillTables (sortAsc [4, 8, 2, 3]) (sortAsc [4, 8, 2, 3]).length = some t ∧
        ∀ i, i < (sortAsc [4, 8, 2, 3]).length →
          ∃ d, t.dp[i]? = some d ∧ 1 ≤ d ∧
            (∃ l : List Nat, l.getLast? = some i ∧
              List.Chain' (DivStep (sortAsc [4, 8, 2, 3])) l ∧ (l.length : Int) = d) ∧
            ∀ l : List Nat, l.getLast? = some i →
              List.Chain' (DivStep (sortAsc [4, 8, 2, 3])) l → (l.length : Int) ≤ d :=
  ⟨by decide, dp_is_longest_chain [4, 8, 2, 3] (by decide)⟩

/-- Claim C13 (predecessor table): for a list of positive integers, every index
`i` has either `prev[i] = -1` and `dp[i] = 1`, or `0 ≤ prev[i] < i`,
`sorted[i] % sorted[prev[i]] = 0` and `dp[i] = dp[prev[i]] + 1`; hence following
`prev` from `i` strictly decreases the index and reaches an index with
`prev = -1` without repeating an index. -/
theorem prev_table_invariant (input : List Int) (hpos : ∀ x ∈ input, 0 < x) :
    ∃ t, fillTables (sortAsc input) (sortAsc input).length = some t ∧
      t.dp.length = (sortAsc input).length ∧ t.prev.length = (sortAsc input).length ∧
      ∀ i, i < (sortAsc input).length →
        ((ent t.prev i = -1 ∧ ent t.dp i = 1) ∨
          (0 ≤ ent t.prev i ∧ ent t.prev i < (i : Int) ∧
            cmod (ent (sortAsc input) i) (ent (sortAsc input) (ent t.prev i).toNat) = some 0 ∧
            ent t.dp i = ent t.dp (ent t.prev i).toNat + 1)) ∧
        ∃ path : List Nat, path.head? = some i ∧ List.Chain' (Linked t.prev) path ∧
          (∃ e, path.getLast? = some e ∧ ent t.prev e = -1) ∧ path.Nodup := by
  by_cases hne : input = []
  · subst hne
    refine ⟨initTables 0, rfl, rfl, rfl, ?_⟩
    intro i hi
    simp [sortAsc] at hi
  · obtain ⟨t, c, r⟩ := run_exists hpos hne
    refine ⟨t, r.fill, r.inv.dp_len, r.inv.prev_len, ?_⟩
    intro i hi
    constructor
    · rcases (r.inv.row hi).link with h1 | ⟨p, hp1, hp2, hp3, hp4, _⟩
      · exact Or.inl h1
      · right
        have hpp : 0 < ent (sortAsc input) p :=
          hpos _ ((sortAsc_perm input).mem_iff.1 (ent_mem (by omega)))
        rw [hp1, Int.toNat_ofNat, cmod_pos hpp]
        refine ⟨by omega, by omega, ?_, hp4⟩
        rw [show Int.tmod (ent (sortAsc input) i) (ent (sortAsc input) p) = 0 from hp3]
    · obtain ⟨l, hl1, hl2, hl3, _, _, _⟩ := path_exists r.inv i hi
      refine ⟨l, hl1, hl2, hl3, ?_⟩
      have hgt : List.Chain' (· > ·) l := hl2.imp (fun a b hab => hab.2)
      exact (List.chain'_iff_pairwise.1 hgt).imp (fun hab => ne_of_gt hab)

/-- Witness for C13 on the input `[4, 8, 2, 3]`. -/
theorem prev_table_invariant_witness :
    (∀ x ∈ [4, 8, 2, 3], (0 : Int) < x) ∧
      ∃ t, fillTables (sortAsc [4, 8, 2, 3]) (sortAsc [4, 8, 2, 3]).length = some t ∧
        t.dp.length = (sortAsc [4, 8, 2, 3]).length ∧
        t.prev.length = (sortAsc [4, 8, 2, 3]).length ∧
        ∀ i, i < (sortAsc [4, 8, 2, 3]).length →
          ((ent t.prev i = -1 ∧ ent t.dp i = 1) ∨
            (0 ≤ ent t.prev i ∧ ent t.prev i < (i : Int) ∧
              cmod (ent (sortAsc [4, 8, 2, 3]) i)
                (ent (sortAsc [4, 8, 2, 3]) (ent t.prev i).toNat) = some 0 ∧
              ent t.dp i = ent t.dp (ent t.prev i).toNat + 1)) ∧
          ∃ path : List Nat, path.head? = some i ∧ List.Chain' (Linked t.prev) path ∧
            (∃ e, path.getLast? = some e ∧ ent t.prev e = -1) ∧ path.Nodup :=
  ⟨by decide, prev_table_invariant [4, 8, 2, 3] (by decide)⟩

/-- Claim C14 (best-end tie-break): for a non-empty list of positive integers,
after the fill loop `maxIndex` is an index of the table, `dp[maxIndex]` is the
maximum of `dp`, and `maxIndex` is the lowest index where that maximum is
attained. -/
theorem maxIndex_first_maximum (input : List Int) (hpos : ∀ x ∈ input, 0 < x)
    (hne : input ≠ []) :
    ∃ t, fillTables (sortAsc input) (sortAsc input).length = some t ∧
      t.maxIndex < t.dp.length ∧ t.dp.length = (sortAsc input).length ∧
      (∀ k, k < t.dp.length → ent t.dp k ≤ ent t.dp t.maxIndex) ∧
      ∀ i, i < t.dp.length → ent t.dp i = ent t.dp t.maxIndex → t.maxIndex ≤ i := by
  obtain ⟨t, c, r⟩ := run_exists hpos hne
  have hlen := r.inv.dp_len
  refine ⟨t, r.fill, by rw [hlen]; exact r.inv.max_lt, hlen, ?_, ?_⟩
  · intro k hk
    exact r.inv.max_ge k (by omega)
  · intro i _ he
    by_contra hlt
    have := r.inv.max_first i (by omega)
    omega

/-- Witness for C14 on `[1, 2, 3]`, where indices `1` and `2` both hold the
maximum. -/
theorem maxIndex_first_maximum_witness :
    (∀ x ∈ [1, 2, 3], (0 : Int) < x) ∧ ([1, 2, 3] : List Int) ≠ [] ∧
      ∃ t, fillTables (sortAsc [1, 2, 3]) (sortAsc [1, 2, 3]).length = some t ∧
        t.maxIndex < t.dp.length ∧ t.dp.length = (sortAsc [1, 2, 3]).length ∧
        (∀ k, k < t.dp.length → ent t.dp k ≤ ent t.dp t.maxIndex) ∧
        ∀ i, i < t.dp.length → ent t.dp i = ent t.dp t.maxIndex → t.maxIndex ≤ i :=
  ⟨by decide, by decide, maxIndex_first_maximum [1, 2, 3] (by decide) (by decide)⟩

/-- Claim C15 (predecessor tie-break): for a list of positive integers and every
index `i`, `prev[i] = -1` exactly when no `j < i` has
`sorted[i] % sorted[j] = 0`; otherwise `prev[i]` is such a `j`, its `dp[j]` is
maximal among them, and no lower such `j` attains that maximum. -/
theorem prev_first_best (input : List Int) (hpos : ∀ x ∈ input, 0 < x) :
    ∃ t, fillTables (sortAsc input) (sortAsc input).length = some t ∧
      ∀ i, i < (sortAsc input).length →
        (ent t.prev i = -1 ↔ ∀ j, j < i → ¬ Divides (sortAsc input) j i) ∧
        (ent t.prev i ≠ -1 → ∃ p : Nat, ent t.prev i = (p : Int) ∧ p < i ∧
          Divides (sortAsc input) p i ∧
          (∀ j, j < i → Divides (sortAsc input) j i → ent t.dp j ≤ ent t.dp p) ∧
          ∀ j, j < p → Divides (sortAsc input) j i → ent t.dp j < ent t.dp p) := by
  by_cases hne : input = []
  · subst hne
    refine ⟨initTables 0, rfl, ?_⟩
    intro i hi
    simp [sortAsc] at hi
  · obtain ⟨t, c, r⟩ := run_exists hpos hne
    refine ⟨t, r.fill, ?_⟩
    intro i hi
    have hrow := r.inv.row hi
    refine ⟨⟨?_, ?_⟩, ?_⟩
    · intro hprev j hj hd
      have h1 := hrow.best j hj hd
      have h2 := (r.inv.row (by omega : j < (sortAsc input).length)).one_le
      rcases hrow.link with ⟨_, h3⟩ | ⟨p, hp1, _⟩
      · omega
      · omega
    · intro hno
      rcases hrow.link with ⟨h1, _⟩ | ⟨p, _, hp2, hp3, _⟩
      · exact h1
      · exact absurd hp3 (hno p hp2)
    · intro hprev
      rcases hrow.link with ⟨h1, _⟩ | ⟨p, hp1, hp2, hp3, hp4, hp5⟩
      · exact absurd h1 hprev
      · refine ⟨p, hp1, hp2, hp3, ?_, hp5⟩
        intro j hj hd
        have := hrow.best j hj hd
        omega

/-- Witness for C15 on `[1, 2, 3, 6]`, where `6` can extend the chain of `2` or
that of `3`. -/
theorem prev_first_best_witness :
    (∀ x ∈ [1, 2, 3, 6], (0 : Int) < x) ∧
      ∃ t, fillTables (sortAsc [1, 2, 3, 6]) (sortAsc [1, 2, 3, 6]).length = some t ∧
        ∀ i, i < (sortAsc [1, 2, 3, 6]).length →
          (ent t.prev i = -1 ↔ ∀ j, j < i → ¬ Divides (sortAsc [1, 2, 3, 6]) j i) ∧
          (ent t.prev i ≠ -1 → ∃ p : Nat, ent t.prev i = (p : Int) ∧ p < i ∧
            Divides (sortAsc [1, 2, 3, 6]) p i ∧
            (∀ j, j < i → Divides (sortAsc [1, 2, 3, 6]) j i → ent t.dp j ≤ ent t.dp p) ∧
            ∀ j, j < p → Divides (sortAsc [1, 2, 3, 6]) j i → ent t.dp j < ent t.dp p) :=
  ⟨by decide, prev_first_best [1, 2, 3, 6] (by decide)⟩

/-- Claim C16 (chain shape): for a non-empty list of positive integers the chain
returned by `findLargestDivisibleSubset` has length `dp[maxIndex]`, starts with
`sorted[maxIndex]`, is non-increasing, and each of its elements is divisible by
the element that follows it. -/
theorem chain_shape (input : List Int) (hpos : ∀ x ∈ input, 0 < x) (hne : input ≠ []) :
    ∃ t c, fillTables (sortAsc input) (sortAsc input).length = some t ∧
      findLargestDivisibleSubset input = some c ∧
      t.dp[t.maxIndex]? = some ((c.length : Nat) : Int) ∧
      (∃ x, (sortAsc input)[t.maxIndex]? = some x ∧ c.head? = some x) ∧
      c.Sorted (· ≥ ·) ∧ List.Chain' (fun a b => b ∣ a) c := by
  obtain ⟨t, c, r⟩ := run_exists hpos hne
  have hm : t.maxIndex < t.dp.length := by rw [r.inv.dp_len]; exact r.inv.max_lt
  refine ⟨t, c, r.fill, r.subset, ?_, ⟨_, get_of_lt r.inv.max_lt, r.walk.head⟩,
    r.walk.sorted (sortAsc_sorted input), r.walk.chain r.inv⟩
  rw [get_of_lt hm, r.len]

/-- Witness for C16 on the input `[4, 8, 2, 3]`. -/
theorem chain_shape_witness :
    (∀ x ∈ [4, 8, 2, 3], (0 : Int) < x) ∧ ([4, 8, 2, 3] : List Int) ≠ [] ∧
      ∃ t c, fillTables (sortAsc [4, 8, 2, 3]) (sortAsc [4, 8, 2, 3]).length = some t ∧
        findLargestDivisibleSubset [4, 8, 2, 3] = some c ∧
        t.dp[t.maxIndex]? = some ((c.length : Nat) : Int) ∧
        (∃ x, (sortAsc [4, 8, 2, 3])[t.maxIndex]? = some x ∧ c.head? = some x) ∧
        c.Sorted (· ≥ ·) ∧ List.Chain' (fun a b => b ∣ a) c :=
  ⟨by decide, by decide, chain_shape [4, 8, 2, 3] (by decide) (by decide)⟩

/-- Claim C17 (termination): for a non-empty list of positive integers
`findLargestDivisibleSubset` returns; the walk-back loop visits a strictly
decreasing path of indices, each the `prev` entry of the one before, and stops
after exactly `dp[maxIndex]` iterations: that many iterations yield the chain,
fewer do not finish. -/
theorem walk_back_terminates (input : List Int) (hpos : ∀ x ∈ input, 0 < x)
    (hne : input ≠ []) :
    ∃ t c, fillTables (sortAsc input) (sortAsc input).length = some t ∧
      findLargestDivisibleSubset input = some c ∧
      (∀ fuel : Nat,
        (ent t.dp t.maxIndex ≤ (fuel : Int) →
          walkBack (sortAsc input) t.prev fuel (t.maxIndex : Int) [] = some c) ∧
        ((fuel : Int) < ent t.dp t.maxIndex →
          walkBack (sortAsc input) t.prev fuel (t.maxIndex : Int) [] = none)) ∧
      ∃ path : List Nat, path.head? = some t.maxIndex ∧ List.Chain' (Linked t.prev) path ∧
        (∃ e, path.getLast? = some e ∧ ent t.prev e = -1) ∧
        (path.length : Int) = ent t.dp t.maxIndex ∧ c = path.map (ent (sortAsc input)) := by
  obtain ⟨t, c, r⟩ := run_exists hpos hne
  obtain ⟨l, hl1, hl2, hl3, _, hl5, hl6⟩ := path_exists r.inv t.maxIndex r.inv.max_lt
  have hlen := r.len
  refine ⟨t, c, r.fill, r.subset, ?_, l, hl1, hl2, hl3, hl5, r.walk.unique hl6⟩
  intro fuel
  constructor
  · intro hf
    simpa using walkBack_of_walk r.walk fuel [] (by omega)
  · intro hf
    exact walkBack_short r.walk fuel [] (by omega)

/-- Witness for C17 on the input `[4, 8, 2, 3]`. -/
theorem walk_back_terminates_witness :
    (∀ x ∈ [4, 8, 2, 3], (0 : Int) < x) ∧ ([4, 8, 2, 3] : List Int) ≠ [] ∧
      ∃ t c, fillTables (sortAsc [4, 8, 2, 3]) (sortAsc [4, 8, 2, 3]).length = some t ∧
        findLargestDivisibleSubset [4, 8, 2, 3] = some c ∧
        (∀ fuel : Nat,
          (ent t.dp t.maxIndex ≤ (fuel : Int) →
            walkBack (sortAsc [4, 8, 2, 3]) t.prev fuel (t.maxIndex : Int) [] = some c) ∧
          ((fuel : Int) < ent t.dp t.maxIndex →
            walkBack (sortAsc [4, 8, 2, 3]) t.prev fuel (t.maxIndex : Int) [] = none)) ∧
        ∃ path : List Nat, path.head? = some t.maxIndex ∧ List.Chain' (Linked t.prev) path ∧
          (∃ e, path.getLast? = some e ∧ ent t.prev e = -1) ∧
          (path.length : Int) = ent t.dp t.maxIndex ∧
          c = path.map (ent (sortAsc [4, 8, 2, 3])) :=
  ⟨by decide, by decide, walk_back_terminates [4, 8, 2, 3] (by decide) (by decide)⟩

/-- Claim C18 (safety): for a list of positive integers no failing branch is
reached: `findLargestDivisibleSubset` returns a list, and on a non-empty input
the fill loop and the walk-back loop return, every remainder `sorted[i] %
sorted[j]` with `j < i < n` is defined with a non-zero divisor, the tables have
`n` entries, `maxIndex` is below `n`, and every `prev[i]` is `-1` or an index
below `n`. -/
theorem no_failing_branch (input : List Int) (hpos : ∀ x ∈ input, 0 < x) :
    ∃ c, findLargestDivisibleSubset input = some c ∧
      (input ≠ [] →
        ∃ t, fillTables (sortAsc input) (sortAsc input).length = some t ∧
          walkBack (sortAsc input) t.prev (sortAsc input).length (t.maxIndex : Int) [] = some c ∧
          (∀ i j, j < i → i < (sortAsc input).length →
            ent (sortAsc input) j ≠ 0 ∧
            cmod (ent (sortAsc input) i) (ent (sortAsc input) j) =
              some (Int.tmod (ent (sortAsc input) i) (ent (sortAsc input) j))) ∧
          t.dp.length = (sortAsc input).length ∧ t.prev.length = (sortAsc input).length ∧
          t.maxIndex < (sortAsc input).length ∧
          ∀ i, i < (sortAsc input).length →
            ent t.prev i = -1 ∨ (0 ≤ ent t.prev i ∧ ent t.prev i < ((sortAsc input).length : Int))) := by
  by_cases hne : input = []
  · subst hne
    exact ⟨[], rfl, fun h => absurd rfl h⟩
  · obtain ⟨t, c, r⟩ := run_exists hpos hne
    refine ⟨c, r.subset, fun _ => ⟨t, r.fill, ?_, ?_, r.inv.dp_len, r.inv.prev_len,
      r.inv.max_lt, ?_⟩⟩
    · have := r.walk.length_le
      have := r.inv.max_lt
      simpa using walkBack_of_walk r.walk (sortAsc input).length [] (by omega)
    · intro i j hj hi
      have hpj : 0 < ent (sortAsc input) j :=
        hpos _ ((sortAsc_perm input).mem_iff.1 (ent_mem (by omega)))
      exact ⟨by omega, cmod_pos hpj⟩
    · intro i hi
      rcases (r.inv.row hi).link with ⟨h1, _⟩ | ⟨p, hp1, hp2, _⟩
      · exact Or.inl h1
      · exact Or.inr ⟨by omega, by omega⟩

/-- Witness for C18 on the input `[4, 8, 2, 3]`. -/
theorem no_failing_branch_witness :
    (∀ x ∈ [4, 8, 2, 3], (0 : Int) < x) ∧
      ∃ c, findLargestDivisibleSubset [4, 8, 2, 3] = some c ∧
        (([4, 8, 2, 3] : List Int) ≠ [] →
          ∃ t, fillTables (sortAsc [4, 8, 2, 3]) (sortAsc [4, 8, 2, 3]).length = some t ∧
            walkBack (sortAsc [4, 8, 2, 3]) t.prev (sortAsc [4, 8, 2, 3]).length
              (t.maxIndex : Int) [] = some c ∧
            (∀ i j, j < i → i < (sortAsc [4, 8, 2, 3]).length →
              ent (sortAsc [4, 8, 2, 3]) j ≠ 0 ∧
              cmod (ent (sortAsc [4, 8, 2, 3]) i) (ent (sortAsc [4, 8, 2, 3]) j) =
                some (Int.tmod (ent (sortAsc [4, 8, 2, 3]) i) (ent (sortAsc [4, 8, 2, 3]) j))) ∧
            t.dp.length = (sortAsc [4, 8, 2, 3]).length ∧
            t.prev.length = (sortAsc [4, 8, 2, 3]).length ∧
            t.maxIndex < (sortAsc [4, 8, 2, 3]).length ∧
            ∀ i, i < (sortAsc [4, 8, 2, 3]).length →
              ent t.prev i = -1 ∨
                (0 ≤ ent t.prev i ∧ ent t.prev i < ((sortAsc [4, 8, 2, 3]).length : Int))) :=
  ⟨by decide, no_failing_branch [4, 8, 2, 3] (by decide)⟩

/-- Claim C19 (whole groups of duplicates): for a list of positive integers,
every value that occurs in the chain returned by `findLargestDivisibleSubset`
occurs in it exactly as often as in the input. -/
theorem chain_takes_all_copies (input : List Int) (hpos : ∀ x ∈ input, 0 < x) :
    ∃ c, findLargestDivisibleSubset input = some c ∧
      ∀ v ∈ c, c.count v = input.count v := by
  by_cases hne : input = []
  · subst hne
    exact ⟨[], rfl, by simp⟩
  · obtain ⟨t, c, r⟩ := run_exists hpos hne
    refine ⟨c, r.subset, ?_⟩
    intro v hv
    rw [r.walk.count_max (sortAsc_sorted input) r.inv v hv, (sortAsc_perm input).count_eq]

/-- Witness for C19 on an input with duplicated values. -/
theorem chain_takes_all_copies_witness :
    (∀ x ∈ [2, 3, 2, 4, 3], (0 : Int) < x) ∧
      ∃ c, findLargestDivisibleSubset [2, 3, 2, 4, 3] = some c ∧
        ∀ v ∈ c, c.count v = List.count v [2, 3, 2, 4, 3] :=
  ⟨by decide, chain_takes_all_copies [2, 3, 2, 4, 3] (by decide)⟩

/-- Claim C20 (permutation invariance): for two lists of positive integers that
are permutations of each other, `findLargestDivisibleSubset` returns the same
list on both, and the two results of `biggest_divisible_conglomerate` are
permutations of each other. -/
theorem permutation_invariance (input1 input2 : List Int) (hperm : input1.Perm input2)
    (hpos : ∀ x ∈ input1, 0 < x) :
    ∃ c r1 r2, findLargestDivisibleSubset input1 = some c ∧
      findLargestDivisibleSubset input2 = some c ∧
      biggest_divisible_conglomerate input1 = some r1 ∧
      biggest_divisible_conglomerate input2 = some r2 ∧ r1.Perm r2 := by
  by_cases hne : input1 = []
  · subst hne
    have := hperm.nil_eq
    subst this
    exact ⟨[], [], [], rfl, rfl, rfl, rfl, List.Perm.refl _⟩
  · have hne2 : input2 ≠ [] := fun h => hne (by subst h; exact hperm.eq_nil)
    have hpos2 : ∀ x ∈ input2, 0 < x := fun x hx => hpos x (hperm.mem_iff.2 hx)
    obtain ⟨t1, c1, r1⟩ := run_exists hpos hne
    obtain ⟨t2, c2, r2⟩ := run_exists hpos2 hne2
    have hsort : sortAsc input1 = sortAsc input2 :=
      List.eq_of_perm_of_sorted (((sortAsc_perm input1).trans hperm).trans
        (sortAsc_perm input2).symm) (sortAsc_sorted input1) (sortAsc_sorted input2)
    have ht : t1 = t2 := by
      have h1 := r1.fill
      rw [hsort, r2.fill] at h1
      exact (Option.some.inj h1).symm
    subst ht
    have hc : c1 = c2 := by
      have hw := r1.walk
      rw [hsort] at hw
      exact hw.unique r2.walk
    subst hc
    exact ⟨c1, _, _, r1.subset, r2.subset, r1.result, r2.result, r1.perm.trans r2.perm.symm⟩

/-- Witness for C20 on `[4, 8, 2, 3]` and its rearrangement `[3, 2, 8, 4]`. -/
theorem permutation_invariance_witness :
    List.Perm [4, 8, 2, 3] [3, 2, 8, 4] ∧ (∀ x ∈ [4, 8, 2, 3], (0 : Int) < x) ∧
      ∃ c r1 r2, findLargestDivisibleSubset [4, 8, 2, 3] = some c ∧
        findLargestDivisibleSubset [3, 2, 8, 4] = some c ∧
        biggest_divisible_conglomerate [4, 8, 2, 3] = some r1 ∧
        biggest_divisible_conglomerate [3, 2, 8, 4] = some r2 ∧ r1.Perm r2 :=
  ⟨by decide, by decide, permutation_invariance [4, 8, 2, 3] [3, 2, 8, 4] (by decide) (by decide)⟩

end BDC
